import Mathlib

/-!
Shallow embedding of the FPGA image-processing pipeline simulator
(`megaproject.cpp`): the fixed-point math utility, the pixel buffer,
the three filter stages and the double-buffered pipeline orchestrator.

Modelling conventions:
* `uint8_t` channels and non-negative `int` quantities become `Nat`;
  coordinates, which the code manipulates as possibly negative `int`
  values, become `Int`; gradient sums, which can be negative, are `Int`.
* The raw pixel block `Pixel* data` becomes a `List Pixel` indexed by the
  code's linear address `y * width + x`; `Image.Wf` records the allocation
  invariant `length data = width * height`.
* `new Pixel[w*h]` leaves the block's contents indeterminate in the
  reference; following the specification the initial value is fixed to
  the zero pixel for determinism (`Image.create`).
* Each filter's double loop is the fold `convolve` over the list of
  visited coordinates in raster order; every iteration reads only the
  source component of the buffer pair and writes one pixel of the
  destination component, exactly as `dest->setPixel(x, y, ...)` does.
* File I/O and logging (PPM dump of intermediate stages, console logs)
  are side effects with no bearing on the buffer contents and are not
  modelled.
-/

/-- A pixel: three 8-bit colour channels (`struct Pixel`). -/
structure Pixel where
  r : Nat
  g : Nat
  b : Nat
deriving DecidableEq, Repr

namespace HardwareMath

/-- Function `HardwareMath::clamp`: saturate an `int` into the byte range [0,255]. -/
def clamp (val : Int) : Nat :=
  if val < 0 then 0
  else if val > 255 then 255
  else val.toNat

end HardwareMath

/-- Class `Image`: dimensions plus the linear pixel block
    (`data[y*width + x]`).  Dimensions are `int` in the code but never
    negative in any reachable state, hence `Nat`. -/
@[ext]
structure Image where
  width : Nat
  height : Nat
  data : List Pixel
deriving DecidableEq, Repr

namespace Image

/-- Allocation invariant of the constructor: the block holds exactly
    `width * height` pixels. -/
def Wf (img : Image) : Prop := img.data.length = img.width * img.height

instance : DecidablePred Wf := fun img => by unfold Wf; infer_instance

/-- Constructor `Image::Image(w, h)`: allocate `w*h` pixels.  The reference leaves the
    block indeterminate; per the specification the initial value is the
    zero pixel. -/
def create (w h : Nat) : Image :=
  ⟨w, h, List.replicate (w * h) ⟨0, 0, 0⟩⟩

/-- Method `Image::getPixel`: bounds check first (zero padding for edges), then
    linear addressing `data[y*width + x]`. -/
def getPixel (img : Image) (x y : Int) : Pixel :=
  if x < 0 ∨ (img.width : Int) ≤ x ∨ y < 0 ∨ (img.height : Int) ≤ y then ⟨0, 0, 0⟩
  else img.data.getD (y.toNat * img.width + x.toNat) ⟨0, 0, 0⟩

/-- Method `Image::setPixel`: write `data[y*width + x]` when the coordinate is in
    bounds, otherwise do nothing. -/
def setPixel (img : Image) (x y : Int) (p : Pixel) : Image :=
  if 0 ≤ x ∧ x < (img.width : Int) ∧ 0 ≤ y ∧ y < (img.height : Int) then
    { img with data := img.data.set (y.toNat * img.width + x.toNat) p }
  else img

end Image

/-- The coordinates visited by a `for (y) for (x)` raster scan over a
    `w × h` region: linear step `i` visits `(i % w, i / w)`, i.e.
    `(x, y)` with `i = y*w + x`. -/
def rowMajor (w h : Nat) : List (Nat × Nat) :=
  (List.range (w * h)).map fun i => (i % w, i / w)

/-- One filter pass over the buffer pair (source, destination): visit the
    coordinates in order; each iteration computes a pixel from the source
    component and stores it into the destination component
    (`dest->setPixel(x, y, ...)`).  The source component is never
    reassigned, mirroring that the loops only call `src->getPixel`. -/
def convolve (pix : Image → Nat → Nat → Pixel) (cs : List (Nat × Nat))
    (st : Image × Image) : Image × Image :=
  cs.foldl (fun s c => (s.1, s.2.setPixel c.1 c.2 (pix s.1 c.1 c.2))) st

namespace GrayscaleFilter

/-- Loop body of `GrayscaleFilter::apply` at `(x, y)`:
    `gray = (r*77 + g*150 + b*29) >> 8`, clamped, written as a gray pixel. -/
def pix (src : Image) (x y : Nat) : Pixel :=
  let p := src.getPixel x y
  let gray : Nat := (p.r * 77 + p.g * 150 + p.b * 29) >>> 8
  let val := HardwareMath.clamp gray
  ⟨val, val, val⟩

/-- Method `GrayscaleFilter::apply`: full raster scan bounded by the source
    dimensions. -/
def apply (st : Image × Image) : Image × Image :=
  convolve pix (rowMajor st.1.width st.1.height) st

end GrayscaleFilter

namespace BlurFilter

/-- The 3×3 Gaussian smoothing kernel. -/
def kernel : List (List Nat) := [[1, 2, 1], [2, 4, 2], [1, 2, 1]]

/-- Kernel normalisation divisor. -/
def divisor : Nat := 16

/-- The convolution sum at `(x, y)`: nine taps
    `src.getPixel(x+kx, y+ky).r * kernel[ky+1][kx+1]`
    (red channel as intensity). -/
def sum (src : Image) (x y : Nat) : Nat :=
  [-1, 0, 1].foldl (fun acc (ky : Int) =>
    [-1, 0, 1].foldl (fun acc2 (kx : Int) =>
      acc2 + (src.getPixel (x + kx) (y + ky)).r *
        ((kernel.getD (ky + 1).toNat []).getD (kx + 1).toNat 0)) acc) 0

/-- Loop body of `BlurFilter::apply` at `(x, y)`: clamped
    `sum / divisor`, written as a gray pixel.  Both operands of the
    division are non-negative `int`s, so it is `Nat` division. -/
def pix (src : Image) (x y : Nat) : Pixel :=
  let val := HardwareMath.clamp ((sum src x y / divisor : Nat))
  ⟨val, val, val⟩

/-- Method `BlurFilter::apply`: full raster scan bounded by the source
    dimensions. -/
def apply (st : Image × Image) : Image × Image :=
  convolve pix (rowMajor st.1.width st.1.height) st

end BlurFilter

namespace SobelFilter

/-- Horizontal-gradient kernel Gx. -/
def gx : List (List Int) := [[-1, 0, 1], [-2, 0, 2], [-1, 0, 1]]

/-- Vertical-gradient kernel Gy. -/
def gy : List (List Int) := [[-1, -2, -1], [0, 0, 0], [1, 2, 1]]

/-- The two gradient sums `(sumX, sumY)` at `(x, y)`: nine taps of the red
    channel weighted by `gx` and `gy`. -/
def sums (src : Image) (x y : Nat) : Int × Int :=
  [-1, 0, 1].foldl (fun s (i : Int) =>
    [-1, 0, 1].foldl (fun s2 (j : Int) =>
      let val : Int := (src.getPixel (x + j) (y + i)).r
      (s2.1 + val * ((gx.getD (i + 1).toNat []).getD (j + 1).toNat 0),
       s2.2 + val * ((gy.getD (i + 1).toNat []).getD (j + 1).toNat 0))) s) (0, 0)

/-- Loop body of `SobelFilter::apply` at `(x, y)`: approximate gradient
    magnitude `|sumX| + |sumY|`, clamped, written as a gray pixel. -/
def pix (src : Image) (x y : Nat) : Pixel :=
  let s := sums src x y
  let mag : Int := |s.1| + |s.2|
  let v := HardwareMath.clamp mag
  ⟨v, v, v⟩

/-- The coordinates the Sobel loops visit: `x` from 1 while `x < w-1`,
    `y` from 1 while `y < h-1` — the interior `[1, w-2] × [1, h-2]`. -/
def interior (w h : Nat) : List (Nat × Nat) :=
  (rowMajor (w - 2) (h - 2)).map fun c => (c.1 + 1, c.2 + 1)

/-- Method `SobelFilter::apply`: scan restricted to interior coordinates. -/
def apply (st : Image × Image) : Image × Image :=
  convolve pix (interior st.1.width st.1.height) st

end SobelFilter

/-- The closed set of `Filter` subclasses. -/
inductive FilterKind
  | grayscale
  | blur
  | sobel
deriving DecidableEq, Repr

/-- Virtual dispatch of `Filter::apply` over the buffer pair. -/
def FilterKind.apply : FilterKind → Image × Image → Image × Image
  | .grayscale => GrayscaleFilter.apply
  | .blur => BlurFilter.apply
  | .sobel => SobelFilter.apply

/-- Class `Pipeline`: ordered stage list plus the owned working buffer. -/
structure Pipeline where
  stages : List FilterKind
  workingBuffer : Image
deriving DecidableEq, Repr

namespace Pipeline

/-- Constructor `Pipeline::Pipeline(input)`: deep-copy the input into the pipeline's
    working buffer; no stages yet. -/
def create (input : Image) : Pipeline := ⟨[], input⟩

/-- Method `Pipeline::addStage`: append to the stage list. -/
def addStage (p : Pipeline) (f : FilterKind) : Pipeline :=
  { p with stages := p.stages ++ [f] }

/-- Method `Pipeline::execute`: allocate the back buffer once (dimensions of the
    working buffer), then for each stage in order apply it to
    (front, back) and swap the two buffers; the back buffer surviving the
    loop is released.  The debug PPM dump after each stage is I/O and not
    modelled. -/
def execute (p : Pipeline) : Pipeline :=
  let go := p.stages.foldl
    (fun (bufs : Image × Image) f =>
      let s := f.apply bufs
      (s.2, s.1))
    (p.workingBuffer, Image.create p.workingBuffer.width p.workingBuffer.height)
  { p with workingBuffer := go.1 }

/-- Method `Pipeline::getResult`: the current working buffer. -/
def getResult (p : Pipeline) : Image := p.workingBuffer

end Pipeline

/-- A `w × h` buffer all of whose pixels equal `p` (test construct used by
    the uniform-buffer properties). -/
def uniform (w h : Nat) (p : Pixel) : Image :=
  ⟨w, h, List.replicate (w * h) p⟩

/-- Modelled from the spec: claim C1 reads each stage as a transform of
    the previous stage's output alone; the transform of one stage is its
    `apply` writing into a fresh buffer of the source's dimensions. -/
def stageTransform (f : FilterKind) (img : Image) : Image :=
  (f.apply (img, Image.create img.width img.height)).2

/-- Modelled from the spec: the stages' transforms applied in append
    order, each stage reading the previous stage's output, starting from
    the pipeline's copy of the input. -/
def specComposition (stages : List FilterKind) (input : Image) : Image :=
  stages.foldl (fun img f => stageTransform f img) input

/-! ## Basic lemmas about the pixel buffer -/

/-- Injectivity of the linear address `y*W + x` for in-row offsets. -/
theorem linIndex_inj {W x a y b : Nat} (hx : x < W) (ha : a < W)
    (h : y * W + x = b * W + a) : x = a ∧ y = b := by
  have e1 : (y * W + x) % W = x := by
    rw [Nat.mul_comm, Nat.mul_add_mod, Nat.mod_eq_of_lt hx]
  have e2 : (b * W + a) % W = a := by
    rw [Nat.mul_comm, Nat.mul_add_mod, Nat.mod_eq_of_lt ha]
  have hxa : x = a := by rw [← e1, h, e2]
  subst hxa
  have hW : 0 < W := Nat.lt_of_le_of_lt (Nat.zero_le x) hx
  have hyb : y * W = b * W := by omega
  exact ⟨rfl, Nat.eq_of_mul_eq_mul_right hW hyb⟩

/-- The linear address of an in-bounds coordinate is inside the block. -/
theorem linIndex_lt {W H x y : Nat} (hx : x < W) (hy : y < H) :
    y * W + x < W * H := by
  calc y * W + x < y * W + W := by omega
    _ = (y + 1) * W := by ring
    _ ≤ H * W := Nat.mul_le_mul_right W (by omega)
    _ = W * H := Nat.mul_comm H W

namespace Image

@[simp] theorem width_setPixel (img : Image) (x y : Int) (p : Pixel) :
    (img.setPixel x y p).width = img.width := by
  unfold setPixel; split <;> rfl

@[simp] theorem height_setPixel (img : Image) (x y : Int) (p : Pixel) :
    (img.setPixel x y p).height = img.height := by
  unfold setPixel; split <;> rfl

theorem Wf.setPixel {img : Image} (h : img.Wf) (x y : Int) (p : Pixel) :
    (img.setPixel x y p).Wf := by
  unfold Image.setPixel
  split
  · simpa [Image.Wf] using h
  · exact h

theorem create_wf (w h : Nat) : (create w h).Wf := by
  simp [Wf, create]

theorem uniform_wf (w h : Nat) (p : Pixel) : (uniform w h p).Wf := by
  simp [Wf, uniform]

/-- A read from a freshly allocated buffer yields the zero pixel, at any
    coordinate. -/
theorem getPixel_create (w h : Nat) (x y : Int) :
    (create w h).getPixel x y = ⟨0, 0, 0⟩ := by
  unfold getPixel create
  split
  · rfl
  · simp [List.getD_eq_getElem?_getD, List.getElem?_replicate]
    split <;> rfl

/-- An in-bounds read from a uniform buffer yields its pixel. -/
theorem getPixel_uniform {w h : Nat} {p : Pixel} {x y : Int}
    (hx0 : 0 ≤ x) (hx : x < (w : Int)) (hy0 : 0 ≤ y) (hy : y < (h : Int)) :
    (uniform w h p).getPixel x y = p := by
  have hw : (uniform w h p).width = w := rfl
  have hh : (uniform w h p).height = h := rfl
  have hd : (uniform w h p).data = List.replicate (w * h) p := rfl
  unfold getPixel
  rw [hw, hh, hd, if_neg (by push_neg; omega)]
  simp only [List.getD_eq_getElem?_getD, List.getElem?_replicate]
  rw [if_pos]
  · rfl
  · have hxw : x.toNat < w := by omega
    have hyh : y.toNat < h := by omega
    exact linIndex_lt hxw hyh

/-- Reading a coordinate other than the one written is unchanged. -/
theorem getPixel_setPixel_ne (img : Image) (a b x y : Int) (p : Pixel)
    (hne : ¬(a = x ∧ b = y)) :
    (img.setPixel a b p).getPixel x y = img.getPixel x y := by
  unfold setPixel
  split
  · next hin =>
    unfold getPixel
    simp only
    split
    · rfl
    · next hget =>
      push_neg at hget
      simp only [List.getD_eq_getElem?_getD]
      rw [List.getElem?_set_ne]
      intro heq
      have hx : x.toNat < img.width := by omega
      have ha : a.toNat < img.width := by omega
      obtain ⟨h1, h2⟩ := linIndex_inj ha hx heq
      exact hne ⟨by omega, by omega⟩
  · rfl

/-- Reading back the coordinate just written yields the written pixel,
    provided the coordinate is in bounds and the buffer well-formed. -/
theorem getPixel_setPixel_self {img : Image} (hwf : img.Wf) {x y : Int}
    (hx0 : 0 ≤ x) (hx : x < (img.width : Int))
    (hy0 : 0 ≤ y) (hy : y < (img.height : Int)) (p : Pixel) :
    (img.setPixel x y p).getPixel x y = p := by
  unfold setPixel
  rw [if_pos ⟨hx0, hx, hy0, hy⟩]
  unfold getPixel
  simp only
  rw [if_neg (by push_neg; omega)]
  simp only [List.getD_eq_getElem?_getD]
  rw [List.getElem?_set_self]
  · rfl
  · rw [hwf]
    exact linIndex_lt (by omega) (by omega)

end Image

/-! ## The convolution fold -/

/-- The destination-only view of one pass, with the source fixed at `a`:
    `convolve` never modifies its source component, so it factors through
    this fold (see `convolve_eq_destFold`). -/
def destFold (pix : Image → Nat → Nat → Pixel) (a : Image)
    (cs : List (Nat × Nat)) (d : Image) : Image :=
  cs.foldl (fun d c => d.setPixel c.1 c.2 (pix a c.1 c.2)) d

theorem destFold_cons (pix : Image → Nat → Nat → Pixel) (a : Image)
    (c : Nat × Nat) (cs : List (Nat × Nat)) (d : Image) :
    destFold pix a (c :: cs) d
      = destFold pix a cs (d.setPixel c.1 c.2 (pix a c.1 c.2)) := rfl

theorem destFold_append (pix : Image → Nat → Nat → Pixel) (a : Image)
    (s t : List (Nat × Nat)) (d : Image) :
    destFold pix a (s ++ t) d = destFold pix a t (destFold pix a s d) :=
  List.foldl_append _ _ _ _

theorem convolve_eq_destFold (pix : Image → Nat → Nat → Pixel)
    (cs : List (Nat × Nat)) (a d : Image) :
    convolve pix cs (a, d) = (a, destFold pix a cs d) := by
  induction cs generalizing d with
  | nil => rfl
  | cons c cs ih =>
      simpa [convolve, destFold] using ih (d.setPixel c.1 c.2 (pix a c.1 c.2))

@[simp] theorem width_destFold (pix : Image → Nat → Nat → Pixel) (a : Image)
    (cs : List (Nat × Nat)) (d : Image) :
    (destFold pix a cs d).width = d.width := by
  induction cs generalizing d with
  | nil => rfl
  | cons c cs ih => rw [destFold_cons, ih, Image.width_setPixel]

@[simp] theorem height_destFold (pix : Image → Nat → Nat → Pixel) (a : Image)
    (cs : List (Nat × Nat)) (d : Image) :
    (destFold pix a cs d).height = d.height := by
  induction cs generalizing d with
  | nil => rfl
  | cons c cs ih => rw [destFold_cons, ih, Image.height_setPixel]

theorem wf_destFold (pix : Image → Nat → Nat → Pixel) (a : Image)
    (cs : List (Nat × Nat)) {d : Image} (hwf : d.Wf) :
    (destFold pix a cs d).Wf := by
  induction cs generalizing d with
  | nil => exact hwf
  | cons c cs ih => rw [destFold_cons]; exact ih (hwf.setPixel _ _ _)

/-- Frame property of a pass: a coordinate not visited is untouched. -/
theorem getPixel_destFold_not_mem (pix : Image → Nat → Nat → Pixel)
    (a : Image) {cs : List (Nat × Nat)} {x y : Int}
    (h : ∀ c ∈ cs, ¬((c.1 : Int) = x ∧ (c.2 : Int) = y)) (d : Image) :
    (destFold pix a cs d).getPixel x y = d.getPixel x y := by
  induction cs generalizing d with
  | nil => rfl
  | cons c cs ih =>
      rw [destFold_cons, ih (fun c hc => h c (List.mem_cons_of_mem _ hc))]
      exact Image.getPixel_setPixel_ne _ _ _ _ _ _ (h c (List.mem_cons_self _ _))

/-- Value property of a pass: a visited coordinate (visited once, in
    bounds of the destination) holds the computed pixel afterwards. -/
theorem getPixel_destFold_mem (pix : Image → Nat → Nat → Pixel) (a : Image)
    {cs : List (Nat × Nat)} (hnd : cs.Nodup) {x y : Nat}
    (hmem : (x, y) ∈ cs) {d : Image} (hwf : d.Wf)
    (hx : x < d.width) (hy : y < d.height) :
    (destFold pix a cs d).getPixel x y = pix a x y := by
  obtain ⟨s, t, rfl⟩ := List.append_of_mem hmem
  have hnt : (x, y) ∉ t :=
    (List.nodup_cons.mp (hnd.of_append_right)).1
  rw [destFold_append, destFold_cons]
  rw [getPixel_destFold_not_mem]
  · apply Image.getPixel_setPixel_self (wf_destFold _ _ _ hwf)
    · exact Int.natCast_nonneg x
    · rw [width_destFold]; exact_mod_cast hx
    · exact Int.natCast_nonneg y
    · rw [height_destFold]; exact_mod_cast hy
  · intro c hc hcxy
    apply hnt
    have h1 : c.1 = x := by exact_mod_cast hcxy.1
    have h2 : c.2 = y := by exact_mod_cast hcxy.2
    have : c = (x, y) := Prod.ext h1 h2
    rwa [this] at hc

/-! ## Raster-order coordinate lists -/

theorem rowMajor_nodup (w h : Nat) : (rowMajor w h).Nodup := by
  apply List.Nodup.map _ (List.nodup_range _)
  intro i j hij
  simp only [Prod.mk.injEq] at hij
  obtain ⟨h1, h2⟩ := hij
  have e1 := Nat.div_add_mod i w
  have e2 := Nat.div_add_mod j w
  rw [h1, h2] at e1
  omega

theorem mem_rowMajor {w h : Nat} {c : Nat × Nat} (hc : c ∈ rowMajor w h) :
    c.1 < w ∧ c.2 < h := by
  simp only [rowMajor, List.mem_map, List.mem_range] at hc
  obtain ⟨i, hi, rfl⟩ := hc
  rcases Nat.eq_zero_or_pos w with rfl | hw
  · omega
  · refine ⟨Nat.mod_lt _ hw, (Nat.div_lt_iff_lt_mul hw).mpr ?_⟩
    rw [Nat.mul_comm h w]
    exact hi

theorem mem_rowMajor_of_lt {w h x y : Nat} (hx : x < w) (hy : y < h) :
    (x, y) ∈ rowMajor w h := by
  simp only [rowMajor, List.mem_map, List.mem_range]
  refine ⟨y * w + x, linIndex_lt hx hy, ?_⟩
  have h1 : (y * w + x) % w = x := by
    rw [Nat.mul_comm, Nat.mul_add_mod, Nat.mod_eq_of_lt hx]
  have h2 : (y * w + x) / w = y := by
    rw [Nat.mul_comm, Nat.mul_add_div (by omega), Nat.div_eq_of_lt hx]
    omega
  rw [h1, h2]

theorem interior_mem_bounds {w h : Nat} {c : Nat × Nat}
    (hc : c ∈ SobelFilter.interior w h) :
    1 ≤ c.1 ∧ c.1 + 1 < w ∧ 1 ≤ c.2 ∧ c.2 + 1 < h := by
  simp only [SobelFilter.interior, List.mem_map] at hc
  obtain ⟨a, ha, rfl⟩ := hc
  obtain ⟨h1, h2⟩ := mem_rowMajor ha
  omega

theorem interior_mem_of {w h x y : Nat}
    (hx1 : 1 ≤ x) (hx2 : x + 1 < w) (hy1 : 1 ≤ y) (hy2 : y + 1 < h) :
    (x, y) ∈ SobelFilter.interior w h := by
  simp only [SobelFilter.interior, List.mem_map]
  exact ⟨(x - 1, y - 1),
    mem_rowMajor_of_lt (by omega) (by omega),
    Prod.ext (by omega) (by omega)⟩

theorem interior_nodup (w h : Nat) : (SobelFilter.interior w h).Nodup := by
  apply List.Nodup.map _ (rowMajor_nodup _ _)
  intro c d hcd
  simp only [Prod.mk.injEq] at hcd
  exact Prod.ext (by omega) (by omega)

/-! ## A full raster scan overwrites the whole destination -/

/-- Reading an in-bounds coordinate is plain linear addressing. -/
theorem Image.getPixel_natCast {img : Image} {x y : Nat}
    (hx : x < img.width) (hy : y < img.height) :
    img.getPixel x y = img.data.getD (y * img.width + x) ⟨0, 0, 0⟩ := by
  unfold getPixel
  rw [if_neg (by push_neg; refine ⟨by omega, ?_, by omega, ?_⟩ <;> exact_mod_cast ‹_›)]
  simp

/-- For a well-formed buffer, the linear block entry at `i` is the pixel at
    coordinate `(i % width, i / width)`. -/
theorem Image.data_getElem_eq_getPixel {img : Image} (hwf : img.Wf) {i : Nat}
    (hi : i < img.data.length) :
    img.data[i] = img.getPixel (↑(i % img.width)) (↑(i / img.width)) := by
  have hwh : i < img.width * img.height := by rw [← hwf]; exact hi
  have hw : 0 < img.width := by
    rcases Nat.eq_zero_or_pos img.width with h0 | h1
    · rw [h0] at hwh; omega
    · exact h1
  have hx : i % img.width < img.width := Nat.mod_lt _ hw
  have hy : i / img.width < img.height := by
    rw [Nat.div_lt_iff_lt_mul hw, Nat.mul_comm]
    exact hwh
  rw [Image.getPixel_natCast hx hy]
  have hidx : i / img.width * img.width + i % img.width = i := by
    rw [Nat.mul_comm]
    exact Nat.div_add_mod i img.width
  rw [hidx, List.getD_eq_getElem?_getD, List.getElem?_eq_getElem hi]
  rfl

/-- Closed form of a full raster scan over a matching destination: every
    pixel of the block is overwritten with the computed value; the initial
    contents of the destination are irrelevant. -/
theorem destFold_rowMajor (pix : Image → Nat → Nat → Pixel) (a : Image)
    {d : Image} {w h : Nat} (hwf : d.Wf) (hW : d.width = w) (hH : d.height = h) :
    destFold pix a (rowMajor w h) d
      = ⟨w, h, (List.range (w * h)).map fun i => pix a (i % w) (i / w)⟩ := by
  have hrw : (destFold pix a (rowMajor w h) d).width = w := by
    rw [width_destFold]; exact hW
  have hrh : (destFold pix a (rowMajor w h) d).height = h := by
    rw [height_destFold]; exact hH
  have hrwf : (destFold pix a (rowMajor w h) d).Wf := wf_destFold _ _ _ hwf
  have hlen : (destFold pix a (rowMajor w h) d).data.length = w * h := by
    rw [hrwf, hrw, hrh]
  ext1
  · exact hrw
  · exact hrh
  · apply List.ext_getElem
    · simpa using hlen
    · intro i h1 h2
      have hi : i < w * h := by rw [← hlen]; exact h1
      have hw : 0 < w := by
        rcases Nat.eq_zero_or_pos w with h0 | hpos
        · rw [h0] at hi; omega
        · exact hpos
      have hx : i % w < w := Nat.mod_lt _ hw
      have hy : i / w < h := by
        rw [Nat.div_lt_iff_lt_mul hw, Nat.mul_comm]
        exact hi
      rw [Image.data_getElem_eq_getPixel hrwf h1, hrw,
        getPixel_destFold_mem pix a (rowMajor_nodup w h)
          (mem_rowMajor_of_lt hx hy) hwf (hW ▸ hx) (hH ▸ hy),
        List.getElem_map, List.getElem_range]

/-! ## Stage-level facts -/

/-- The method `apply` never touches the source buffer: the loops of all three
    filters only ever write through `dest`. -/
theorem apply_fst (f : FilterKind) (src d : Image) :
    (f.apply (src, d)).1 = src := by
  cases f <;>
    simp [FilterKind.apply, GrayscaleFilter.apply, BlurFilter.apply,
      SobelFilter.apply, convolve_eq_destFold]

@[simp] theorem apply_snd_width (f : FilterKind) (src d : Image) :
    (f.apply (src, d)).2.width = d.width := by
  cases f <;>
    simp [FilterKind.apply, GrayscaleFilter.apply, BlurFilter.apply,
      SobelFilter.apply, convolve_eq_destFold]

@[simp] theorem apply_snd_height (f : FilterKind) (src d : Image) :
    (f.apply (src, d)).2.height = d.height := by
  cases f <;>
    simp [FilterKind.apply, GrayscaleFilter.apply, BlurFilter.apply,
      SobelFilter.apply, convolve_eq_destFold]

theorem apply_snd_wf (f : FilterKind) (src : Image) {d : Image} (hwf : d.Wf) :
    (f.apply (src, d)).2.Wf := by
  cases f <;>
    · simp only [FilterKind.apply, GrayscaleFilter.apply, BlurFilter.apply,
        SobelFilter.apply, convolve_eq_destFold]
      exact wf_destFold _ _ _ hwf

/-- Grayscale and blur scan the full raster, so their output does not
    depend on the destination buffer's previous contents (Sobel is the
    exception: it skips the outer ring). -/
theorem apply_snd_dest_irrelevant {f : FilterKind}
    (hf : f = FilterKind.grayscale ∨ f = FilterKind.blur)
    (src : Image) {d d' : Image}
    (hW : d.width = src.width) (hH : d.height = src.height) (hwf : d.Wf)
    (hW' : d'.width = src.width) (hH' : d'.height = src.height) (hwf' : d'.Wf) :
    (f.apply (src, d)).2 = (f.apply (src, d')).2 := by
  rcases hf with rfl | rfl <;>
    · simp only [FilterKind.apply, GrayscaleFilter.apply, BlurFilter.apply,
        convolve_eq_destFold]
      rw [destFold_rowMajor _ _ hwf hW hH, destFold_rowMajor _ _ hwf' hW' hH']

/-! ## Pipeline-level lemmas -/

@[simp] theorem Image.width_create (w h : Nat) : (Image.create w h).width = w := rfl

@[simp] theorem Image.height_create (w h : Nat) : (Image.create w h).height = h := rfl

@[simp] theorem stageTransform_width (f : FilterKind) (img : Image) :
    (stageTransform f img).width = img.width := by
  simp [stageTransform]

@[simp] theorem stageTransform_height (f : FilterKind) (img : Image) :
    (stageTransform f img).height = img.height := by
  simp [stageTransform]

theorem stageTransform_wf (f : FilterKind) (img : Image) :
    (stageTransform f img).Wf :=
  apply_snd_wf f img (Image.create_wf _ _)

theorem specComposition_cons (f : FilterKind) (fs : List FilterKind)
    (img : Image) :
    specComposition (f :: fs) img = specComposition fs (stageTransform f img) := rfl

theorem foldl_addStage (fs : List FilterKind) (p : Pipeline) :
    fs.foldl Pipeline.addStage p = ⟨p.stages ++ fs, p.workingBuffer⟩ := by
  induction fs generalizing p with
  | nil => simp
  | cons f fs ih => simp [Pipeline.addStage, ih]

/-- The execution loop, when every stage scans the full raster, computes
    the composition of the stage transforms: the back buffer's stale
    contents never reach the result. -/
theorem execLoop_spec (fs : List FilterKind)
    (hfs : ∀ f ∈ fs, f = FilterKind.grayscale ∨ f = FilterKind.blur)
    (wk bk : Image) (hwk : wk.Wf) (hbk : bk.Wf)
    (hW : bk.width = wk.width) (hH : bk.height = wk.height) :
    (fs.foldl (fun (bufs : Image × Image) f =>
        ((f.apply bufs).2, (f.apply bufs).1)) (wk, bk)).1
      = specComposition fs wk := by
  induction fs generalizing wk bk with
  | nil => rfl
  | cons f fs ih =>
      rw [List.foldl_cons]
      have h1 : (f.apply (wk, bk)).1 = wk := apply_fst f wk bk
      have h2 : (f.apply (wk, bk)).2
          = (f.apply (wk, Image.create wk.width wk.height)).2 :=
        apply_snd_dest_irrelevant (hfs f (List.mem_cons_self f fs)) wk
          hW hH hbk rfl rfl (Image.create_wf _ _)
      rw [h1, h2, specComposition_cons]
      have hst : (f.apply (wk, Image.create wk.width wk.height)).2
          = stageTransform f wk := rfl
      rw [hst]
      exact ih (fun g hg => hfs g (List.mem_cons_of_mem _ hg))
        (stageTransform f wk) wk (stageTransform_wf f wk) hwk
        (by rw [stageTransform_width]) (by rw [stageTransform_height])

/-- Running `execute` on a pipeline of full-raster stages, stated over the
    pipeline structure. -/
theorem execute_getResult_spec (p : Pipeline)
    (hwf : p.workingBuffer.Wf)
    (hfs : ∀ f ∈ p.stages, f = FilterKind.grayscale ∨ f = FilterKind.blur) :
    p.execute.getResult = specComposition p.stages p.workingBuffer :=
  execLoop_spec p.stages hfs p.workingBuffer _ hwf (Image.create_wf _ _) rfl rfl

/-! ## Kernel sums over a locally constant neighbourhood -/

/-- If all nine taps of the Sobel neighbourhood read the same pixel, both
    gradient sums vanish (the kernels' weights sum to zero). -/
theorem SobelFilter.sums_const {src : Image} {x y : Nat} {p : Pixel}
    (hread : ∀ j i : Int, -1 ≤ j → j ≤ 1 → -1 ≤ i → i ≤ 1 →
      src.getPixel (↑x + j) (↑y + i) = p) :
    SobelFilter.sums src x y = (0, 0) := by
  unfold SobelFilter.sums
  simp only [List.foldl_cons, List.foldl_nil]
  rw [hread (-1) (-1) (by norm_num) (by norm_num) (by norm_num) (by norm_num),
      hread 0 (-1) (by norm_num) (by norm_num) (by norm_num) (by norm_num),
      hread 1 (-1) (by norm_num) (by norm_num) (by norm_num) (by norm_num),
      hread (-1) 0 (by norm_num) (by norm_num) (by norm_num) (by norm_num),
      hread 0 0 (by norm_num) (by norm_num) (by norm_num) (by norm_num),
      hread 1 0 (by norm_num) (by norm_num) (by norm_num) (by norm_num),
      hread (-1) 1 (by norm_num) (by norm_num) (by norm_num) (by norm_num),
      hread 0 1 (by norm_num) (by norm_num) (by norm_num) (by norm_num),
      hread 1 1 (by norm_num) (by norm_num) (by norm_num) (by norm_num)]
  simp [SobelFilter.gx, SobelFilter.gy]

/-- If all nine taps of the blur neighbourhood read the same pixel, the
    kernel sum is `16` times its red channel. -/
theorem BlurFilter.sum_const {src : Image} {x y : Nat} {p : Pixel}
    (hread : ∀ j i : Int, -1 ≤ j → j ≤ 1 → -1 ≤ i → i ≤ 1 →
      src.getPixel (↑x + j) (↑y + i) = p) :
    BlurFilter.sum src x y = 16 * p.r := by
  unfold BlurFilter.sum
  simp only [List.foldl_cons, List.foldl_nil]
  rw [hread (-1) (-1) (by norm_num) (by norm_num) (by norm_num) (by norm_num),
      hread 0 (-1) (by norm_num) (by norm_num) (by norm_num) (by norm_num),
      hread 1 (-1) (by norm_num) (by norm_num) (by norm_num) (by norm_num),
      hread (-1) 0 (by norm_num) (by norm_num) (by norm_num) (by norm_num),
      hread 0 0 (by norm_num) (by norm_num) (by norm_num) (by norm_num),
      hread 1 0 (by norm_num) (by norm_num) (by norm_num) (by norm_num),
      hread (-1) 1 (by norm_num) (by norm_num) (by norm_num) (by norm_num),
      hread 0 1 (by norm_num) (by norm_num) (by norm_num) (by norm_num),
      hread 1 1 (by norm_num) (by norm_num) (by norm_num) (by norm_num)]
  simp [BlurFilter.kernel]
  ring

/-- The nine taps around an interior coordinate of a uniform buffer all
    read its pixel. -/
theorem uniform_neighbourhood_read {w h x y : Nat} (p : Pixel)
    (hx1 : 1 ≤ x) (hx2 : x + 1 < w) (hy1 : 1 ≤ y) (hy2 : y + 1 < h) :
    ∀ j i : Int, -1 ≤ j → j ≤ 1 → -1 ≤ i → i ≤ 1 →
      (uniform w h p).getPixel (↑x + j) (↑y + i) = p := by
  intro j i hj1 hj2 hi1 hi2
  apply Image.getPixel_uniform <;> omega

/-! ## Claim theorems -/

/-- Claim C6: for every integer `v`, `HardwareMath::clamp` returns a value
    in `[0, 255]`, is idempotent, maps values below 0 to 0 and values
    above 255 to 255, and returns values already in `[0, 255]` unchanged. -/
theorem clamp_byte_saturation (v : Int) :
    HardwareMath.clamp v ≤ 255 ∧
    HardwareMath.clamp (HardwareMath.clamp v) = HardwareMath.clamp v ∧
    (v < 0 → HardwareMath.clamp v = 0) ∧
    (255 < v → HardwareMath.clamp v = 255) ∧
    (0 ≤ v → v ≤ 255 → (HardwareMath.clamp v : Int) = v) := by
  unfold HardwareMath.clamp
  split_ifs <;> refine ⟨?_, ?_, ?_, ?_, ?_⟩ <;> intros <;> omega

/-- Witness for C6 at `v = 300`, `v = -7` and `v = 42`. -/
theorem clamp_byte_saturation_witness :
    HardwareMath.clamp 300 = 255 ∧ HardwareMath.clamp (-7) = 0 ∧
    (HardwareMath.clamp 42 : Int) = 42 :=
  ⟨(clamp_byte_saturation 300).2.2.2.1 (by norm_num),
   (clamp_byte_saturation (-7)).2.2.1 (by norm_num),
   (clamp_byte_saturation 42).2.2.2.2 (by norm_num) (by norm_num)⟩

/-- Claim C4: on any buffer with positive dimensions: an out-of-bounds
    `getPixel` returns the zero pixel and an out-of-bounds `setPixel`
    leaves the entire buffer unchanged (both are total functions — no
    error channel exists); an in-bounds `getPixel` returns the stored
    pixel at linear address `y*width + x`. -/
theorem image_zero_padding_policy (img : Image)
    (hw : 1 ≤ img.width) (hh : 1 ≤ img.height) (x y : Int) :
    (¬(0 ≤ x ∧ x < (img.width : Int) ∧ 0 ≤ y ∧ y < (img.height : Int)) →
      img.getPixel x y = ⟨0, 0, 0⟩ ∧ ∀ p, img.setPixel x y p = img) ∧
    ((0 ≤ x ∧ x < (img.width : Int) ∧ 0 ≤ y ∧ y < (img.height : Int)) →
      img.getPixel x y
        = img.data.getD (y.toNat * img.width + x.toNat) ⟨0, 0, 0⟩) := by
  constructor
  · intro hout
    constructor
    · unfold Image.getPixel
      split
      · rfl
      · next hc => push_neg at hc; exact absurd ⟨by omega, by omega, by omega, by omega⟩ hout
    · intro p
      unfold Image.setPixel
      rw [if_neg hout]
  · intro hin
    unfold Image.getPixel
    rw [if_neg (by omega)]

/-- Witness for C4 on a 2×2 buffer at the out-of-bounds coordinate
    `(-1, 0)` and the in-bounds coordinate `(1, 1)`. -/
theorem image_zero_padding_policy_witness :
    (uniform 2 2 ⟨5, 6, 7⟩).getPixel (-1) 0 = ⟨0, 0, 0⟩ ∧
    (uniform 2 2 ⟨5, 6, 7⟩).setPixel (-1) 0 ⟨9, 9, 9⟩ = uniform 2 2 ⟨5, 6, 7⟩ ∧
    (uniform 2 2 ⟨5, 6, 7⟩).getPixel 1 1
      = (uniform 2 2 ⟨5, 6, 7⟩).data.getD 3 ⟨0, 0, 0⟩ := by
  have h := image_zero_padding_policy (uniform 2 2 ⟨5, 6, 7⟩)
    (by decide) (by decide)
  have h1 := (h (-1) 0).1 (by decide)
  have h2 := (h 1 1).2 (by decide)
  exact ⟨h1.1, h1.2 ⟨9, 9, 9⟩, h2⟩

/-- Claim C9: a pipeline with zero stages returns, after `execute`, a result
    identical by value to the (copied) input image; in this value model
    the caller's image is a value and is untouched by construction and
    execution. -/
theorem pipeline_zero_stages_id (input : Image) :
    ((Pipeline.create input).execute).getResult = input := rfl

/-- Claim C10: for byte channels `r, g, b ≤ 255` the grayscale intensity
    `(r*77 + g*150 + b*29) >> 8` is already at most 255, so `clamp`
    acts as the identity on it — both saturation branches are dead in
    the grayscale filter. -/
theorem grayscale_intensity_identity (r g b : Nat)
    (hr : r ≤ 255) (hg : g ≤ 255) (hb : b ≤ 255) :
    (r * 77 + g * 150 + b * 29) >>> 8 ≤ 255 ∧
    HardwareMath.clamp ((r * 77 + g * 150 + b * 29) >>> 8)
      = (r * 77 + g * 150 + b * 29) >>> 8 := by
  have h28 : (2 : Nat) ^ 8 = 256 := by norm_num
  have hbound : (r * 77 + g * 150 + b * 29) >>> 8 ≤ 255 := by
    rw [Nat.shiftRight_eq_div_pow, h28]
    omega
  refine ⟨hbound, ?_⟩
  generalize (r * 77 + g * 150 + b * 29) >>> 8 = n at hbound ⊢
  unfold HardwareMath.clamp
  split_ifs <;> omega

/-- Witness for C10 at `r = g = b = 255` (the maximal intensity, 255). -/
theorem grayscale_intensity_identity_witness :
    (255 * 77 + 255 * 150 + 255 * 29) >>> 8 ≤ 255 ∧
    HardwareMath.clamp ((255 * 77 + 255 * 150 + 255 * 29) >>> 8)
      = (255 * 77 + 255 * 150 + 255 * 29) >>> 8 :=
  grayscale_intensity_identity 255 255 255 (by norm_num) (by norm_num)
    (by norm_num)

/-- Claim C5: the grayscale filter writes, at every in-range coordinate, a
    pixel whose three channels all equal the clamped intensity
    `(r*77 + g*150 + b*29) >> 8` of the source pixel directly under that
    coordinate. -/
theorem grayscale_writes_luminance (src dest : Image) (x y : Nat)
    (hx : x < src.width) (hy : y < src.height)
    (hW : dest.width = src.width) (hH : dest.height = src.height)
    (hwf : dest.Wf) :
    (FilterKind.grayscale.apply (src, dest)).2.getPixel x y
      = (let p := src.getPixel x y
         let v := HardwareMath.clamp ((p.r * 77 + p.g * 150 + p.b * 29) >>> 8)
         ⟨v, v, v⟩) := by
  have happ : (FilterKind.grayscale.apply (src, dest)).2
      = destFold GrayscaleFilter.pix src (rowMajor src.width src.height) dest := by
    simp [FilterKind.apply, GrayscaleFilter.apply, convolve_eq_destFold]
  rw [happ, getPixel_destFold_mem _ _ (rowMajor_nodup _ _)
    (mem_rowMajor_of_lt hx hy) hwf (by omega) (by omega)]
  rfl

/-- Witness for C5 on a 1×1 source with pixel `(1, 2, 3)`. -/
theorem grayscale_writes_luminance_witness :
    (FilterKind.grayscale.apply (uniform 1 1 ⟨1, 2, 3⟩, Image.create 1 1)).2.getPixel 0 0
      = (let p := (uniform 1 1 ⟨1, 2, 3⟩).getPixel 0 0
         let v := HardwareMath.clamp ((p.r * 77 + p.g * 150 + p.b * 29) >>> 8)
         ⟨v, v, v⟩) :=
  grayscale_writes_luminance (uniform 1 1 ⟨1, 2, 3⟩) (Image.create 1 1) 0 0
    (by decide) (by decide) rfl rfl (by decide)

/-- Claim C8: each of the three filters leaves the source buffer unchanged:
    the loops only ever write through the destination. -/
theorem filter_apply_preserves_source (f : FilterKind) (src dest : Image)
    (hW : dest.width = src.width) (hH : dest.height = src.height) :
    (f.apply (src, dest)).1 = src :=
  apply_fst f src dest

/-- Witness for C8: the Sobel filter on a 2×2 uniform source. -/
theorem filter_apply_preserves_source_witness :
    (FilterKind.sobel.apply (uniform 2 2 ⟨1, 2, 3⟩, Image.create 2 2)).1
      = uniform 2 2 ⟨1, 2, 3⟩ :=
  filter_apply_preserves_source FilterKind.sobel (uniform 2 2 ⟨1, 2, 3⟩)
    (Image.create 2 2) rfl rfl

/-- Claim C2: the Sobel filter writes only interior coordinates
    (`x ∈ [1, w-2]`, `y ∈ [1, h-2]`): every other coordinate of the
    destination is untouched, and when the destination is a freshly
    allocated buffer the whole outer ring still holds the zero pixel
    after `apply`. -/
theorem sobel_leaves_outer_ring_zero (src dest : Image)
    (hw : 1 ≤ src.width) (hh : 1 ≤ src.height) :
    (∀ x y : Int,
      ¬(1 ≤ x ∧ x ≤ (src.width : Int) - 2 ∧ 1 ≤ y ∧ y ≤ (src.height : Int) - 2) →
      (FilterKind.sobel.apply (src, dest)).2.getPixel x y = dest.getPixel x y) ∧
    (∀ x y : Int,
      (x = 0 ∨ x = (src.width : Int) - 1 ∨ y = 0 ∨ y = (src.height : Int) - 1) →
      (FilterKind.sobel.apply (src, Image.create src.width src.height)).2.getPixel x y
        = ⟨0, 0, 0⟩) := by
  have key : ∀ (d : Image) (x y : Int),
      ¬(1 ≤ x ∧ x ≤ (src.width : Int) - 2 ∧ 1 ≤ y ∧ y ≤ (src.height : Int) - 2) →
      (FilterKind.sobel.apply (src, d)).2.getPixel x y = d.getPixel x y := by
    intro d x y hxy
    have happ : (FilterKind.sobel.apply (src, d)).2
        = destFold SobelFilter.pix src
            (SobelFilter.interior src.width src.height) d := by
      simp [FilterKind.apply, SobelFilter.apply, convolve_eq_destFold]
    rw [happ]
    apply getPixel_destFold_not_mem
    rintro c hc ⟨hcx, hcy⟩
    obtain ⟨h1, h2, h3, h4⟩ := interior_mem_bounds hc
    exact hxy ⟨by omega, by omega, by omega, by omega⟩
  refine ⟨key dest, fun x y hxy => ?_⟩
  rw [key (Image.create src.width src.height) x y (by omega),
    Image.getPixel_create]

/-- Witness for C2 on a 3×3 source: the non-interior coordinate `(0, 2)`
    keeps the destination's pixel, and the ring coordinate `(2, 1)` of a
    fresh destination stays zero. -/
theorem sobel_leaves_outer_ring_zero_witness :
    (FilterKind.sobel.apply (uniform 3 3 ⟨7, 8, 9⟩, uniform 3 3 ⟨1, 1, 1⟩)).2.getPixel 0 2
      = (uniform 3 3 ⟨1, 1, 1⟩).getPixel 0 2 ∧
    (FilterKind.sobel.apply (uniform 3 3 ⟨7, 8, 9⟩, Image.create 3 3)).2.getPixel 2 1
      = ⟨0, 0, 0⟩ := by
  have h := sobel_leaves_outer_ring_zero (uniform 3 3 ⟨7, 8, 9⟩)
    (uniform 3 3 ⟨1, 1, 1⟩) (by decide) (by decide)
  exact ⟨h.1 0 2 (by decide), h.2 2 1 (by decide)⟩

/-- Claim C7: on a uniform buffer the Sobel filter writes the zero gray
    pixel at every interior coordinate: both gradient sums vanish, so the
    L1 magnitude is 0. -/
theorem sobel_uniform_interior_zero (w h : Nat) (p : Pixel) (dest : Image)
    (x y : Nat) (hx1 : 1 ≤ x) (hx2 : x + 1 < w) (hy1 : 1 ≤ y) (hy2 : y + 1 < h)
    (hW : dest.width = w) (hH : dest.height = h) (hwf : dest.Wf) :
    (FilterKind.sobel.apply (uniform w h p, dest)).2.getPixel x y
      = ⟨0, 0, 0⟩ := by
  have happ : (FilterKind.sobel.apply (uniform w h p, dest)).2
      = destFold SobelFilter.pix (uniform w h p)
          (SobelFilter.interior w h) dest := by
    simp [FilterKind.apply, SobelFilter.apply, convolve_eq_destFold, uniform]
  rw [happ, getPixel_destFold_mem _ _ (interior_nodup _ _)
    (interior_mem_of hx1 hx2 hy1 hy2) hwf (by omega) (by omega)]
  unfold SobelFilter.pix
  rw [SobelFilter.sums_const (uniform_neighbourhood_read p hx1 hx2 hy1 hy2)]
  norm_num [HardwareMath.clamp]

/-- Witness for C7: centre pixel of a 3×3 uniform buffer. -/
theorem sobel_uniform_interior_zero_witness :
    (FilterKind.sobel.apply (uniform 3 3 ⟨9, 9, 9⟩, Image.create 3 3)).2.getPixel 1 1
      = ⟨0, 0, 0⟩ :=
  sobel_uniform_interior_zero 3 3 ⟨9, 9, 9⟩ (Image.create 3 3) 1 1
    (by norm_num) (by norm_num) (by norm_num) (by norm_num) rfl rfl (by decide)

/-- Claim C3, counterexample: the blur filter is *not* a fixed point on
    every uniform buffer: on a 1×1 all-255 buffer the single pixel is an
    edge pixel, its out-of-bounds taps read zero padding, and the output
    is `(4*255)/16 = 63`, not 255. -/
theorem blur_uniform_not_fixed_cex :
    (FilterKind.blur.apply (uniform 1 1 ⟨255, 255, 255⟩, Image.create 1 1)).2
      ≠ uniform 1 1 ⟨255, 255, 255⟩ := by decide

/-- Claim C3, amended: on a uniform *gray* buffer (all pixels `(c,c,c)`,
    `c ≤ 255`), the blur filter reproduces the source pixel at every
    coordinate whose full 3×3 neighbourhood lies in bounds
    (`x ∈ [1, w-2]`, `y ∈ [1, h-2]`): there the kernel sum is `16*c` and
    `16*c/16 = c`.  Border pixels are darkened by the zero padding, so
    the buffer as a whole is not a fixed point. -/
theorem blur_uniform_interior_fixed (w h c : Nat) (dest : Image)
    (x y : Nat) (hc : c ≤ 255)
    (hx1 : 1 ≤ x) (hx2 : x + 1 < w) (hy1 : 1 ≤ y) (hy2 : y + 1 < h)
    (hW : dest.width = w) (hH : dest.height = h) (hwf : dest.Wf) :
    (FilterKind.blur.apply (uniform w h ⟨c, c, c⟩, dest)).2.getPixel x y
      = (uniform w h ⟨c, c, c⟩).getPixel x y := by
  have happ : (FilterKind.blur.apply (uniform w h ⟨c, c, c⟩, dest)).2
      = destFold BlurFilter.pix (uniform w h ⟨c, c, c⟩) (rowMajor w h) dest := by
    simp [FilterKind.apply, BlurFilter.apply, convolve_eq_destFold, uniform]
  rw [happ, getPixel_destFold_mem _ _ (rowMajor_nodup _ _)
    (mem_rowMajor_of_lt (by omega) (by omega)) hwf (by omega) (by omega),
    Image.getPixel_uniform (by omega) (by exact_mod_cast (by omega : (x : Int) < w))
      (by omega) (by exact_mod_cast (by omega : (y : Int) < h))]
  unfold BlurFilter.pix
  rw [BlurFilter.sum_const (uniform_neighbourhood_read ⟨c, c, c⟩ hx1 hx2 hy1 hy2)]
  have hdiv : 16 * (Pixel.mk c c c).r / BlurFilter.divisor = c := by
    show 16 * c / BlurFilter.divisor = c
    unfold BlurFilter.divisor
    omega
  rw [hdiv]
  have hcl : HardwareMath.clamp (c : Int) = c := by
    unfold HardwareMath.clamp
    split_ifs <;> omega
  rw [hcl]

/-- Witness for the amended C3: centre pixel of a 3×3 uniform gray-200
    buffer. -/
theorem blur_uniform_interior_fixed_witness :
    (FilterKind.blur.apply (uniform 3 3 ⟨200, 200, 200⟩, Image.create 3 3)).2.getPixel 1 1
      = (uniform 3 3 ⟨200, 200, 200⟩).getPixel 1 1 :=
  blur_uniform_interior_fixed 3 3 200 (Image.create 3 3) 1 1 (by norm_num)
    (by norm_num) (by norm_num) (by norm_num) (by norm_num) rfl rfl (by decide)

/-- Claim C1, counterexample: the result of `execute` does *not* always
    equal the composition of the stages' transforms: on a 1×1 input with
    stages [grayscale, sobel], Sobel visits no coordinate (no interior in
    a 1×1 buffer), so the final swap hands back the buffer holding the
    pipeline's untouched input copy `(200,0,0)` — while the composed
    transforms yield the zero image.  The result reflects stale data, not
    the last stage's output. -/
theorem execute_not_specComposition_cex :
    ((((Pipeline.create (uniform 1 1 ⟨200, 0, 0⟩)).addStage
        FilterKind.grayscale).addStage FilterKind.sobel).execute).getResult
      ≠ specComposition [FilterKind.grayscale, FilterKind.sobel]
          (uniform 1 1 ⟨200, 0, 0⟩) := by decide

/-- Claim C1, amended: when every appended stage scans the full raster
    (grayscale and blur do; Sobel does not), `getResult` after `execute`
    equals the stages' transforms composed in append order starting from
    the pipeline's copy of the input: each stage reads only the previous
    stage's output and the back buffer's stale contents are fully
    overwritten, never read. -/
theorem execute_total_stages_spec (input : Image) (fs : List FilterKind)
    (hwf : input.Wf)
    (hfs : ∀ f ∈ fs, f = FilterKind.grayscale ∨ f = FilterKind.blur) :
    ((fs.foldl Pipeline.addStage (Pipeline.create input)).execute).getResult
      = specComposition fs input := by
  rw [foldl_addStage]
  have h := execute_getResult_spec ⟨[] ++ fs, input⟩ hwf (by simpa using hfs)
  simpa using h

/-- Witness for the amended C1: a grayscale-then-blur pipeline on a 2×2
    input. -/
theorem execute_total_stages_spec_witness :
    (([FilterKind.grayscale, FilterKind.blur].foldl Pipeline.addStage
        (Pipeline.create (uniform 2 2 ⟨10, 20, 30⟩))).execute).getResult
      = specComposition [FilterKind.grayscale, FilterKind.blur]
          (uniform 2 2 ⟨10, 20, 30⟩) :=
  execute_total_stages_spec (uniform 2 2 ⟨10, 20, 30⟩)
    [FilterKind.grayscale, FilterKind.blur] (by decide) (by decide)
